import Mathlib

/-!
Verification of the gitui repository: a shallow embedding of the commit-graph
construction (`src/backend.rs`) and the canvas viewport controller
(`src/gui.rs`), together with theorems settling the specification claims.

Conventions of the embedding:
* `git2::Commit` is modelled as a finite tree `Commit` (an id plus the list of
  parent commits, as reported by the repository).
* `HashMap<String, CommitNode>` is modelled as an association list with
  `insert` replacing the binding of an existing key (as `HashMap::insert`
  does); iteration order is the list order.
* Rust functions that can `panic!` / `unwrap` / `assert!` are modelled as
  `Option`-valued functions (or explicit outcome types), `none` standing for
  the panic.
* The graph-recursive layout functions of `backend.rs` recurse along string
  keys of the map; the Rust recursion is modelled with an explicit `fuel`
  argument bounding the call depth, `none` standing for nontermination /
  stack exhaustion.
* `usize` arithmetic is `Nat` with an explicit wrap `% 2 ^ 64` at the one
  place overflow is reachable (`min_parent_depth + 1` against the
  `usize::MAX` sentinel); `isize` is `Int`.
* `f32` coordinates are idealised as rationals `ℚ`.
-/

namespace GitUI

/-! ### Data model (`backend.rs`) -/

/-- A commit as handed over by the repository collaborator (`git2::Commit`):
its id and, recursively, its parent commits. -/
inductive Commit where
  | mk (id : String) (parents : List Commit)

def Commit.id : Commit → String
  | .mk i _ => i

def Commit.parents : Commit → List Commit
  | .mk _ ps => ps

/-- `CommitNode` from `backend.rs`. -/
structure CommitNode where
  id : String
  parents : List String
  children : List String
  reference : Option String
deriving DecidableEq

/-- The commit map `HashMap<String, CommitNode>`, as an association list. -/
def CMap := List (String × CommitNode)

instance : DecidableEq CMap := by unfold CMap; infer_instance

/-- `HashMap::get`. -/
def findCommit : CMap → String → Option CommitNode
  | [], _ => none
  | (k, v) :: rest, id => if k == id then some v else findCommit rest id

/-- `HashMap::contains_key`. -/
def containsKey (commits : CMap) (id : String) : Bool :=
  (findCommit commits id).isSome

/-- `HashMap::insert`: replaces the binding of an existing key. -/
def insertCommit : CMap → String → CommitNode → CMap
  | [], id, node => [(id, node)]
  | (k, v) :: rest, id, node =>
    if k == id then (id, node) :: rest else (k, v) :: insertCommit rest id node

mutual
/-- `CommitNode::create` (backend.rs:11-31). Returns the id of the commit and
the updated map; `none` models the `unwrap` panic inside the child-linking
loop. -/
def create : Commit → CMap → Option String → Option (String × CMap)
  | Commit.mk cid cparents, commits, reference =>
    if containsKey commits cid && reference.isNone then
      some (cid, commits)
    else do
      let pr ← createParents cparents commits
      let m2 ← linkChildren cparents pr.2 cid
      some (cid, insertCommit m2 cid ⟨cid, pr.1, [], reference⟩)

/-- The first loop of `CommitNode::create`: create every parent (with no
label) and collect the returned ids into `result.parents`. -/
def createParents : List Commit → CMap → Option (List String × CMap)
  | [], m => some ([], m)
  | p :: rest, m => do
    let pr ← create p m none
    let rr ← createParents rest pr.2
    some (pr.1 :: rr.1, rr.2)

/-- The second loop of `CommitNode::create`: re-create every parent (a no-op
by then) and push the child id onto the parent's `children`; the
`get_mut(..).unwrap()` is modelled by the `none` branch. -/
def linkChildren : List Commit → CMap → String → Option CMap
  | [], m, _ => some m
  | p :: rest, m, childId => do
    let pr ← create p m none
    match findCommit pr.2 pr.1 with
    | none => none
    | some pnode =>
        linkChildren rest
          (insertCommit pr.2 pr.1 { pnode with children := pnode.children ++ [childId] }) childId
end

def USIZE_MAX : Nat := 2 ^ 64 - 1

def USIZE_MOD : Nat := 2 ^ 64

/-- The `for parent in &commit.parents` loop of `get_commit_depth`
(backend.rs:37-42), abstracted over the recursive call `dep`: fold the
running minimum `minD` through the parents' depths. -/
def depth_loop (dep : CommitNode → Option Nat) (m : CMap) :
    List String → Nat → Option Nat
  | [], minD => some minD
  | parent :: rest, minD => do
    let pnode ← findCommit m parent
    let pd ← dep pnode
    depth_loop dep m rest (if pd < minD then pd else minD)

/-- `get_commit_depth` (backend.rs:34-48): minimum over parent depths, with
the `usize::MAX` sentinel and the wrapping `+ 1`; `fuel` bounds the recursion
depth and `none` models the `unwrap` panic / nontermination. -/
def get_commit_depth (fuel : Nat) (commit : CommitNode) (commits : CMap) : Option Nat :=
  match fuel with
  | 0 => none
  | f + 1 =>
    if commit.parents.length > 0 then do
      let minD ← depth_loop (fun pnode => get_commit_depth f pnode commits) commits
        commit.parents USIZE_MAX
      pure ((minD + 1) % USIZE_MOD)
    else some 0

/-- The `for child in &commit.children` loop of `get_commit_tree_size`
(backend.rs:56-59), abstracted over the recursive call `ts`. -/
def tree_size_loop (ts : CommitNode → Option Nat) (m : CMap) :
    List String → Nat → Option Nat
  | [], size => some size
  | child :: rest, size => do
    let cnode ← findCommit m child
    let s ← ts cnode
    tree_size_loop ts m rest (size + s)

/-- `get_commit_tree_size` (backend.rs:50-61). -/
def get_commit_tree_size (fuel : Nat) (commit : CommitNode) (commits : CMap) : Option Nat :=
  match fuel with
  | 0 => none
  | f + 1 =>
    tree_size_loop (fun cnode => get_commit_tree_size f cnode commits) commits
      commit.children
      (if commit.children.length > 0 then commit.children.length - 1
       else commit.children.length)

/-- `get_commit_height` (backend.rs:63-83). -/
def get_commit_height (fuel : Nat) (commit : CommitNode) (commits : CMap) : Option Int :=
  match fuel with
  | 0 => none
  | f + 1 =>
    if commit.parents.length = 0 then some 0
    else do
      let parentId ← commit.parents.get? 0
      let parent ← findCommit commits parentId
      if parent.children.length = 1 then
        get_commit_height f parent commits
      else do
        let pos ← parent.children.findIdx? (fun c => c == commit.id)
        let multiplier : Int := if pos = 0 then -1 else 1
        let value ← get_commit_tree_size f commit commits
        let ph ← get_commit_height f parent commits
        pure (ph + multiplier * (1 + (value : Int)))

/-- The summation `Σ subtreeSize(c) for c in n.children` of the spec's
`subtreeSize`, abstracted over the recursive call `ss`. -/
def spec_size_loop (ss : CommitNode → Option Int) (m : CMap) :
    List String → Int → Option Int
  | [], acc => some acc
  | c :: rest, acc => do
    let cnode ← findCommit m c
    let s ← ss cnode
    spec_size_loop ss m rest (acc + s)

/-- The spec's `subtreeSize`:
`subtreeSize(n) = max(0, childCount(n) - 1) + Σ subtreeSize(c) for c in
n.children`, written over `Int` exactly as the spec words it. -/
def subtreeSizeSpec (fuel : Nat) (n : CommitNode) (commits : CMap) : Option Int :=
  match fuel with
  | 0 => none
  | f + 1 =>
    spec_size_loop (fun cnode => subtreeSizeSpec f cnode commits) commits
      n.children (max 0 ((n.children.length : Int) - 1))

/-- The per-parent depth values used by the spec's
`depth(n) = 1 + min(depth(p) for p in n.parents)`. -/
def depths_of (fuel : Nat) (m : CMap) : List String → Option (List Nat)
  | [] => some []
  | pid :: rest => do
    let p ← findCommit m pid
    let d ← get_commit_depth fuel p m
    let ds ← depths_of fuel m rest
    pure (d :: ds)

/-! ### Viewport model (`gui.rs`) -/

/-- `iced::Point` with `f32` idealised as `ℚ`. -/
structure Point where
  x : ℚ
  y : ℚ
deriving DecidableEq

/-- `iced::Vector`. -/
structure Vector where
  x : ℚ
  y : ℚ
deriving DecidableEq

/-- `iced`: `Point - Point = Vector`. -/
def Point.sub (a b : Point) : Vector := ⟨a.x - b.x, a.y - b.y⟩

instance : HSub Point Point Vector := ⟨Point.sub⟩

/-- `iced`: `Vector + Vector`. -/
def Vector.add (a b : Vector) : Vector := ⟨a.x + b.x, a.y + b.y⟩

instance : Add Vector := ⟨Vector.add⟩

/-- `iced`: `Vector * f32`. -/
def Vector.scale (v : Vector) (s : ℚ) : Vector := ⟨v.x * s, v.y * s⟩

instance : HMul Vector ℚ Vector := ⟨Vector.scale⟩

/-- `iced::Rectangle` (the canvas bounds). -/
structure Rectangle where
  x : ℚ
  y : ℚ
  width : ℚ
  height : ℚ
deriving DecidableEq

def NODE_RADIUS : ℚ := 50

inductive Message where
  | RefreshTree
  | SelectCommit (id : String)
  | UnselectCommit
  | SwitchToCommit (id : String)
deriving DecidableEq

inductive Status where
  | Captured
  | Ignored
deriving DecidableEq

inductive Button where
  | Left
  | Right
  | Middle
deriving DecidableEq

inductive ScrollDelta where
  | Lines (x y : ℚ)
  | Pixels (x y : ℚ)
deriving DecidableEq

/-- `TreeState` (gui.rs:169-178). -/
structure TreeState where
  mouse_location : Point
  dragging : Bool
  offset_start : Vector
  dragging_start : Point
  offset : Vector
  zoom : ℚ
  initialized : Bool
  node_locations : List (String × Point)
deriving DecidableEq

/-- `Default for TreeState` (gui.rs:180-193): everything zero / empty except
`zoom = 1.0`. -/
def TreeState.default : TreeState :=
  ⟨⟨0, 0⟩, false, ⟨0, 0⟩, ⟨0, 0⟩, ⟨0, 0⟩, 1, false, []⟩

/-- Lookup in `state.node_locations`. -/
def findLoc : List (String × Point) → String → Option Point
  | [], _ => none
  | (k, v) :: rest, id => if k == id then some v else findLoc rest id

/-- Insert into `state.node_locations` (replace an existing binding). -/
def insertLoc : List (String × Point) → String → Point → List (String × Point)
  | [], id, loc => [(id, loc)]
  | (k, v) :: rest, id, loc =>
    if k == id then (id, loc) :: rest else (k, v) :: insertLoc rest id loc

/-- The iteration order of `commits.keys()` / `commits.iter()`: the order of
the association list. -/
def keysOf (commits : CMap) : List String := commits.map (fun p => p.1)

/-- `get_commit_node_location` (gui.rs:157-161):
`x = depth * NODE_RADIUS * 2.5`, `y = height * NODE_RADIUS * 1.5`. -/
def get_commit_node_location (fuel : Nat) (commit : CommitNode) (commits : CMap) :
    Option Point := do
  let d ← get_commit_depth fuel commit commits
  let h ← get_commit_height fuel commit commits
  pure ⟨(d : ℚ) * NODE_RADIUS * (5 / 2), (h : ℚ) * NODE_RADIUS * (3 / 2)⟩

/-- `adjust_position_for_view` (gui.rs:163-167). -/
def adjust_position_for_view (position : Point) (bounds : Rectangle) (state : TreeState) :
    Point :=
  ⟨state.zoom * (position.x + state.offset.x) + bounds.width / 2,
   state.zoom * (position.y + state.offset.y) + bounds.height / 2⟩

/-- `a.distance b < c` for iced's Euclidean `Point::distance`, stated on
squares so it stays inside `ℚ`: for `c > 0` this is exactly
`distance a b < c`, and for `c ≤ 0` both are false. -/
def distance_lt (a b : Point) (c : ℚ) : Bool :=
  decide (0 < c ∧ (a.x - b.x) ^ 2 + (a.y - b.y) ^ 2 < c ^ 2)

/-- The hit-testing loop of the left-button-press arm (gui.rs:214-221):
first key (in map iteration order) whose adjusted location is within
`NODE_RADIUS * zoom` of the pointer; `none` models the
`node_locations.get(id).unwrap()` panic. -/
def hit_test_loop (ids : List String) (st : TreeState) (bounds : Rectangle) :
    Option (Option String) :=
  match ids with
  | [] => some none
  | id :: rest =>
    match findLoc st.node_locations id with
    | none => none
    | some location =>
      let location := adjust_position_for_view location bounds st
      if distance_lt st.mouse_location location (NODE_RADIUS * st.zoom) then some (some id)
      else hit_test_loop rest st bounds

/-- The `Event::Mouse(ButtonPressed)` arm of `TreeRenderer::update`
(gui.rs:211-234): resulting state, event status and emitted message. -/
def button_pressed_update (commits : CMap) (st : TreeState) (bounds : Rectangle)
    (button : Button) : Option (TreeState × Status × Option Message) :=
  if button = Button.Left then
    if 0 < st.mouse_location.y then
      match hit_test_loop (keysOf commits) st bounds with
      | none => none
      | some (some id) => some (st, Status.Captured, some (Message.SelectCommit id))
      | some none =>
        some ({ st with dragging := true, dragging_start := st.mouse_location,
                        offset_start := st.offset },
              Status.Captured, some Message.UnselectCommit)
    else some (st, Status.Captured, none)
  else some (st, Status.Ignored, none)

/-- The `Event::Mouse(CursorMoved)` arm of `TreeRenderer::update`
(gui.rs:246-254). -/
def cursor_moved_update (st : TreeState) (bounds : Rectangle) (location : Point) :
    TreeState × Status × Option Message :=
  let st := { st with mouse_location := Point.mk (location.x - bounds.x) (location.y - bounds.y) }
  let st :=
    if st.dragging then
      { st with offset := st.offset_start + (st.mouse_location - st.dragging_start) * (1 / st.zoom) }
    else st
  (st, Status.Captured, none)

/-- `f32::clamp`. -/
def rustClamp (x lo hi : ℚ) : ℚ := if x < lo then lo else if hi < x then hi else x

/-- The `Event::Mouse(WheelScrolled)` arm of `TreeRenderer::update`
(gui.rs:255-281), with `0.15 = 15/100` and the clamp range `[0.001, 4.0]`. -/
def wheel_scrolled_update (st : TreeState) (bounds : Rectangle) (delta : ScrollDelta) :
    TreeState × Status × Option Message :=
  let st :=
    if !st.dragging then
      match delta with
      | ScrollDelta.Lines _ y =>
        let mouse_location_x := (st.mouse_location.x - bounds.width / 2) / st.zoom - st.offset.x
        let mouse_location_y := (st.mouse_location.y - bounds.height / 2) / st.zoom - st.offset.y
        let previous_pos : Point := ⟨mouse_location_x, mouse_location_y⟩
        let previous_pos := adjust_position_for_view previous_pos bounds st
        let st := { st with zoom := rustClamp (st.zoom + y * (15 / 100) * st.zoom) (1 / 1000) 4 }
        let new_pos : Point := ⟨mouse_location_x, mouse_location_y⟩
        let new_pos := adjust_position_for_view new_pos bounds st
        let moved_x := (new_pos.x - previous_pos.x) / st.zoom
        let st := { st with offset := Vector.mk (st.offset.x - moved_x) st.offset.y }
        let moved_y := (new_pos.y - previous_pos.y) / st.zoom
        { st with offset := Vector.mk st.offset.x (st.offset.y - moved_y) }
      | ScrollDelta.Pixels _ _ => st
    else st
  (st, Status.Captured, none)

/-- The `for (id, commit) in commits.iter()` loop of the initialization
block (gui.rs:201-204), abstracted over the per-node location computation
`gl`. -/
def locations_loop (gl : CommitNode → Option Point) :
    CMap → List (String × Point) → Option (List (String × Point))
  | [], locs => some locs
  | (id, commit) :: rest, locs => do
    let location ← gl commit
    locations_loop gl rest (insertLoc locs id location)

/-- The initialization block at the top of `TreeRenderer::update`
(gui.rs:199-206): fill `node_locations` and set `initialized` on the first
pass, do nothing on every later pass. -/
def ensure_node_locations (fuel : Nat) (commits : CMap) (st : TreeState) :
    Option TreeState :=
  if !st.initialized then do
    let locs ← locations_loop (fun commit => get_commit_node_location fuel commit commits)
      commits st.node_locations
    pure { st with node_locations := locs, initialized := true }
  else some st

/-- The graph-space point currently under the cursor, i.e. the spec's inverse
transform `graphX = (screenX - width/2)/zoom - offset.x` (as computed at
gui.rs:259-260). -/
def graph_point_under_cursor (st : TreeState) (bounds : Rectangle) : Point :=
  ⟨(st.mouse_location.x - bounds.width / 2) / st.zoom - st.offset.x,
   (st.mouse_location.y - bounds.height / 2) / st.zoom - st.offset.y⟩

/-- Outcome of the commit lookup in the `Message::SwitchToCommit` arm of
`GitUI::update` (gui.rs:88-90): `commits.get(&commit).unwrap()`. -/
inductive LookupOutcome where
  | found (node : CommitNode)
  | panicked
deriving DecidableEq

/-- The `commits.get(&commit).unwrap()` lookup of the `SwitchToCommit`
handler: an unknown id panics the process. -/
def switch_to_commit_lookup (commits : CMap) (commit : String) : LookupOutcome :=
  match findCommit commits commit with
  | some node => LookupOutcome.found node
  | none => LookupOutcome.panicked

/-- The label extracted from a reference name:
`reference_name[reference_name.rfind('/').unwrap() + 1..]` (gui.rs:73),
i.e. the characters after the last `'/'`. -/
def extract_reference_label (name : String) : String :=
  String.mk ((name.data.reverse.takeWhile (fun c => c != '/')).reverse)

/-- Outcome of processing one reference name in the `RefreshTree` arm of
`GitUI::update` (gui.rs:71-73). -/
inductive RefreshRefOutcome where
  | processed (label : String)
  | assertionFailed
deriving DecidableEq

/-- Processing of one reference name during `RefreshTree`:
`assert!(reference_name.contains('/'))` panics on a name without a
separator, otherwise the label after the last `'/'` is extracted.
(`String::contains` is modelled on the character list.) -/
def process_reference_name (reference_name : String) : RefreshRefOutcome :=
  if reference_name.data.contains '/' then
    RefreshRefOutcome.processed (extract_reference_label reference_name)
  else RefreshRefOutcome.assertionFailed

/-! ### Concrete instances used by witnesses and counterexamples -/

/-- A canvas rectangle at the origin. -/
def b0 : Rectangle := ⟨0, 0, 100, 100⟩

/-- Commit `b` with single parent `a` (as reported by the repository). -/
def cB : Commit := Commit.mk "b" [Commit.mk "a" []]

/-- The map produced by `create cB [] (some "l1")`. -/
def m1C1 : CMap :=
  [("a", ⟨"a", [], ["b"], none⟩), ("b", ⟨"b", ["a"], [], some "l1"⟩)]

/-- The map produced by re-running `create cB` on `m1C1` with label `l2`. -/
def m2C1 : CMap :=
  [("a", ⟨"a", [], ["b", "b"], none⟩), ("b", ⟨"b", ["a"], [], some "l2"⟩)]

/-- A single root commit. -/
def cA1 : Commit := Commit.mk "a" []

/-- A map already containing commit `a`. -/
def mW1 : CMap := [("a", ⟨"a", [], [], some "x"⟩)]

/-- Spec §8 scenario: root `a` with children `b` (first) and `c` (second). -/
def mABC : CMap :=
  [("a", ⟨"a", [], ["b", "c"], none⟩),
   ("b", ⟨"b", ["a"], [], none⟩),
   ("c", ⟨"c", ["a"], [], none⟩)]

def nodeA : CommitNode := ⟨"a", [], ["b", "c"], none⟩

def nodeB : CommitNode := ⟨"b", ["a"], [], none⟩

/-- A diamond-shaped history: roots `a` and `c`, `b` on top of `a`, and a
merge commit `d` with parents `b` (depth 1) and `c` (depth 0). -/
def mD : CMap :=
  [("a", ⟨"a", [], ["b"], none⟩),
   ("b", ⟨"b", ["a"], ["d"], none⟩),
   ("c", ⟨"c", [], ["d"], none⟩),
   ("d", ⟨"d", ["b", "c"], [], none⟩)]

def nD : CommitNode := ⟨"d", ["b", "c"], [], none⟩

/-- Viewport state for the zoom witness. -/
def stW4 : TreeState := ⟨⟨10, 20⟩, false, ⟨0, 0⟩, ⟨0, 0⟩, ⟨3, 4⟩, 1, true, []⟩

/-- Two distinct nodes projected to the same screen location: a hit-test tie. -/
def mW6 : CMap := [("n1", ⟨"n1", [], [], none⟩), ("n2", ⟨"n2", [], [], none⟩)]

def stW6 : TreeState :=
  ⟨⟨0, 1⟩, false, ⟨0, 0⟩, ⟨0, 0⟩, ⟨0, 0⟩, 1, true, [("n1", ⟨0, 0⟩), ("n2", ⟨0, 0⟩)]⟩

def bW6 : Rectangle := ⟨0, 0, 0, 0⟩

/-- Graph before a refresh: a single root `a`. -/
def mG1 : CMap := [("a", ⟨"a", [], [], none⟩)]

/-- Graph after a refresh added `b` on top of `a`. -/
def mG2 : CMap := [("a", ⟨"a", [], ["b"], none⟩), ("b", ⟨"b", ["a"], [], none⟩)]

def nB7 : CommitNode := ⟨"b", ["a"], [], none⟩

/-- The canvas state after the first update pass over `mG1`. -/
def stStale : TreeState :=
  ⟨⟨0, 0⟩, false, ⟨0, 0⟩, ⟨0, 0⟩, ⟨0, 0⟩, 1, true, [("a", ⟨0, 0⟩)]⟩

/-- A press recorded above the canvas content (`y = -1`). -/
def stC9neg : TreeState := ⟨⟨3, -1⟩, false, ⟨0, 0⟩, ⟨0, 0⟩, ⟨0, 0⟩, 1, true, []⟩

/-- A press inside the canvas, far from every node (the graph is empty). -/
def stW9a : TreeState := ⟨⟨5, 5⟩, false, ⟨1, 1⟩, ⟨0, 0⟩, ⟨2, 2⟩, 1, true, []⟩

/-- A state mid-drag with anchors captured. -/
def stW9b : TreeState := ⟨⟨0, 0⟩, true, ⟨1, 1⟩, ⟨2, 2⟩, ⟨0, 0⟩, 2, true, []⟩

/-- A press recorded exactly on the top edge (`y = 0`). -/
def stW10 : TreeState := ⟨⟨3, 0⟩, false, ⟨0, 0⟩, ⟨0, 0⟩, ⟨0, 0⟩, 1, true, []⟩

/-! ### Helper lemmas -/

@[simp] theorem Point.sub_def (a b : Point) : a - b = Vector.mk (a.x - b.x) (a.y - b.y) := rfl

@[simp] theorem Vector.add_def (a b : Vector) :
    a + b = Vector.mk (a.x + b.x) (a.y + b.y) := rfl

@[simp] theorem Vector.scale_def (v : Vector) (s : ℚ) :
    v * s = Vector.mk (v.x * s) (v.y * s) := rfl

theorem findCommit_insert_self (m : CMap) (id : String) (v : CommitNode) :
    findCommit (insertCommit m id v) id = some v := by
  induction m with
  | nil => simp [insertCommit, findCommit]
  | cons kv rest ih =>
    obtain ⟨k, w⟩ := kv
    by_cases hk : k == id
    · simp [insertCommit, hk, findCommit]
    · simp [insertCommit, hk, findCommit, ih]

/-! ### C5: unknown commit id in `SwitchToCommit` -/

/-- C5: the claim says a `SwitchToCommit` lookup with an id absent from the
graph returns an explicit not-found result and never crashes.  The code
(gui.rs:90) calls `commits.get(&commit).unwrap()`, which panics the process
on an unknown id: evaluating the model at the failing input (an empty map
and the foreign id `"deadbeef"`) yields the panic outcome. -/
theorem C5_switch_to_commit_unknown_id_panics :
    switch_to_commit_lookup [] "deadbeef" = LookupOutcome.panicked := rfl

/-! ### C8: reference name without a separator -/

/-- C8: the claim says a reference name with no `'/'` separator is rejected
explicitly as a `MalformedReferenceName` caller error.  The code
(gui.rs:72) instead executes `assert!(reference_name.contains('/'))`, an
internal assertion that panics: at the failing input `"HEAD"` (which
contains no separator) the refresh step ends in the assertion failure,
not in a surfaced error value. -/
theorem C8_malformed_reference_name_asserts :
    process_reference_name "HEAD" = RefreshRefOutcome.assertionFailed ∧
    ("HEAD".data.contains '/') = false := by
  exact ⟨by decide, by decide⟩

/-! ### C10: presses with pointer y ≤ 0 -/

/-- C10: a left-button press whose recorded pointer position has `y ≤ 0` is
consumed (`Captured`) but emits no message and leaves the state — including
`dragging`, `offset` and `zoom` — completely unchanged (gui.rs:213,228-230):
selection and drag initiation require `0 < y`. -/
theorem C10_press_above_canvas_is_inert (commits : CMap) (st : TreeState)
    (bounds : Rectangle) (h : st.mouse_location.y ≤ 0) :
    button_pressed_update commits st bounds Button.Left =
      some (st, Status.Captured, none) := by
  rw [button_pressed_update, if_pos rfl, if_neg (not_lt.mpr h)]

/-- Witness for C10 at the concrete state `stW10` (pointer at `(3, 0)`). -/
theorem C10_witness :
    stW10.mouse_location.y ≤ 0 ∧
    button_pressed_update [] stW10 b0 Button.Left =
      some (stW10, Status.Captured, none) :=
  ⟨le_refl 0, C10_press_above_canvas_is_inert [] stW10 b0 (le_refl 0)⟩

/-! ### C3: depth machinery -/

theorem depth_loop_bound (dep : CommitNode → Option Nat) (m : CMap) (f : Nat)
    (hdep : ∀ n d, dep n = some d → d ≤ f) :
    ∀ (ps : List String) (acc r : Nat),
      depth_loop dep m ps acc = some r → r ≤ acc ∧ (r = acc ∨ r ≤ f) := by
  intro ps
  induction ps with
  | nil =>
    intro acc r h
    simp [depth_loop] at h
    omega
  | cons p rest ih =>
    intro acc r h
    cases hfc : findCommit m p with
    | none => simp [depth_loop, hfc] at h
    | some pnode =>
      cases hd : dep pnode with
      | none => simp [depth_loop, hfc, hd] at h
      | some pd =>
        simp [depth_loop, hfc, hd] at h
        have hrec := ih _ _ h
        have hpd := hdep _ _ hd
        by_cases hlt : pd < acc
        · rw [if_pos hlt] at hrec
          exact ⟨by omega, Or.inr (by rcases hrec.2 with h2 | h2 <;> omega)⟩
        · rw [if_neg hlt] at hrec
          exact hrec

theorem depth_le_fuel : ∀ (f : Nat) (n : CommitNode) (m : CMap) (d : Nat),
    get_commit_depth f n m = some d → d ≤ f := by
  intro f
  induction f with
  | zero => intro n m d h; simp [get_commit_depth] at h
  | succ f ih =>
    intro n m d h
    rw [get_commit_depth] at h
    by_cases hp : n.parents.length > 0
    · rw [if_pos hp] at h
      cases hfold : depth_loop (fun pnode => get_commit_depth f pnode m) m n.parents
          USIZE_MAX with
      | none => rw [hfold] at h; simp at h
      | some minD =>
        rw [hfold] at h
        simp at h
        have hb := depth_loop_bound _ m f (fun n d hh => ih n m d hh) n.parents
          USIZE_MAX minD hfold
        rcases hb.2 with h2 | h2
        · subst h2
          have hmod : (USIZE_MAX + 1) % USIZE_MOD = 0 := by decide
          omega
        · have := Nat.mod_le (minD + 1) USIZE_MOD
          omega
    · rw [if_neg hp] at h
      simp at h
      omega

theorem depth_loop_of_depths (f : Nat) (m : CMap) :
    ∀ (ps : List String) (ds : List Nat), depths_of f m ps = some ds →
      ∀ acc : Nat,
        depth_loop (fun pnode => get_commit_depth f pnode m) m ps acc =
          some (ds.foldl (fun a d => if d < a then d else a) acc) := by
  intro ps
  induction ps with
  | nil =>
    intro ds h acc
    simp [depths_of] at h
    subst h
    simp [depth_loop]
  | cons pid rest ih =>
    intro ds h acc
    cases hfc : findCommit m pid with
    | none => simp [depths_of, hfc] at h
    | some p =>
      cases hd : get_commit_depth f p m with
      | none => simp [depths_of, hfc, hd] at h
      | some d =>
        cases hds : depths_of f m rest with
        | none => simp [depths_of, hfc, hd, hds] at h
        | some ds' =>
          simp [depths_of, hfc, hd, hds] at h
          subst h
          simp [depth_loop, hfc, hd, List.foldl_cons]
          exact ih ds' hds (if d < acc then d else acc)

theorem depths_of_le_fuel (f : Nat) (m : CMap) :
    ∀ (ps : List String) (ds : List Nat), depths_of f m ps = some ds →
      ∀ d ∈ ds, d ≤ f := by
  intro ps
  induction ps with
  | nil => intro ds h d hd; simp [depths_of] at h; subst h; simp at hd
  | cons pid rest ih =>
    intro ds h d hd
    cases hfc : findCommit m pid with
    | none => simp [depths_of, hfc] at h
    | some p =>
      cases hdp : get_commit_depth f p m with
      | none => simp [depths_of, hfc, hdp] at h
      | some d0 =>
        cases hds : depths_of f m rest with
        | none => simp [depths_of, hfc, hdp, hds] at h
        | some ds' =>
          simp [depths_of, hfc, hdp, hds] at h
          subst h
          rcases List.mem_cons.mp hd with rfl | hd'
          · exact depth_le_fuel f p m d hdp
          · exact ih ds' hds d hd'

theorem foldl_min_spec (ds : List Nat) : ∀ acc : Nat,
    (ds.foldl (fun a d => if d < a then d else a) acc = acc ∨
      ds.foldl (fun a d => if d < a then d else a) acc ∈ ds) ∧
    ds.foldl (fun a d => if d < a then d else a) acc ≤ acc ∧
    ∀ d ∈ ds, ds.foldl (fun a d => if d < a then d else a) acc ≤ d := by
  induction ds with
  | nil => intro acc; simp
  | cons d0 rest ih =>
    intro acc
    obtain ⟨hmem, hle, hall⟩ := ih (if d0 < acc then d0 else acc)
    simp only [List.foldl_cons]
    refine ⟨?_, ?_, ?_⟩
    · rcases hmem with h | h
      · rw [h]
        by_cases hlt : d0 < acc
        · exact Or.inr (by rw [if_pos hlt]; exact List.mem_cons_self d0 rest)
        · exact Or.inl (by rw [if_neg hlt])
      · exact Or.inr (List.mem_cons_of_mem d0 h)
    · refine le_trans hle ?_
      split <;> omega
    · intro d hd
      rcases List.mem_cons.mp hd with rfl | hd'
      · refine le_trans hle ?_
        split <;> omega
      · exact hall d hd'

/-- C3: for every node, `get_commit_depth` follows the spec's recursion:
depth is `0` when the node has no parents, and otherwise
`1 + min(depth(p) for p in parents)` — the minimum, not the maximum.
`ds` is the list of the parents' depths (each computed with the remaining
fuel `f`), `v` their minimum, and `f < usize::MAX` rules the sentinel out. -/
theorem C3_depth_is_one_plus_min_parent_depth :
    (∀ (f : Nat) (n : CommitNode) (m : CMap), n.parents = [] →
      get_commit_depth (f + 1) n m = some 0) ∧
    (∀ (f : Nat) (n : CommitNode) (m : CMap) (ds : List Nat) (v : Nat),
      f < USIZE_MAX →
      n.parents ≠ [] →
      depths_of f m n.parents = some ds →
      v ∈ ds → (∀ d ∈ ds, v ≤ d) →
      get_commit_depth (f + 1) n m = some (1 + v)) := by
  constructor
  · intro f n m hp
    rw [get_commit_depth, if_neg (by simp [hp])]
  · intro f n m ds v hfuel hne hds hv hmin
    rw [get_commit_depth,
      if_pos (by simpa using List.length_pos.mpr hne),
      depth_loop_of_depths f m n.parents ds hds USIZE_MAX]
    have hspec := foldl_min_spec ds USIZE_MAX
    set r := ds.foldl (fun a d => if d < a then d else a) USIZE_MAX with hr
    have hvf : v ≤ f := depths_of_le_fuel f m n.parents ds hds v hv
    have hrv : r = v := by
      have hle : r ≤ v := hspec.2.2 v hv
      rcases hspec.1 with h1 | h1
      · exfalso
        rw [h1] at hle
        simp [USIZE_MAX] at hle hfuel
        omega
      · exact le_antisymm hle (hmin r h1)
    rw [hrv]
    have hlt : v + 1 < USIZE_MOD := by
      have : USIZE_MAX + 1 = USIZE_MOD := by decide
      omega
    simp [Nat.mod_eq_of_lt hlt]
    omega

/-- Witness for C3 on the diamond `mD`: the merge commit `d` has parents
`b` (depth 1) and `c` (depth 0), and its depth is `1 + min {1, 0} = 1`. -/
theorem C3_witness : get_commit_depth 3 nD mD = some 1 := by
  have h := C3_depth_is_one_plus_min_parent_depth.2 2 nD mD [1, 0] 0
    (by decide) (by decide) (by decide) (by decide) (by decide)
  simpa using h

/-! ### C2: tree size and height machinery -/

theorem size_loop_cast (ts : CommitNode → Option Nat) (ss : CommitNode → Option Int)
    (m : CMap) (hcast : ∀ c, (ts c).map (fun s => (s : Int)) = ss c) :
    ∀ (children : List String) (accN : Nat),
      (tree_size_loop ts m children accN).map (fun s => (s : Int)) =
        spec_size_loop ss m children (accN : Int) := by
  intro children
  induction children with
  | nil => intro accN; simp [tree_size_loop, spec_size_loop]
  | cons c rest ih =>
    intro accN
    cases hfc : findCommit m c with
    | none => simp [tree_size_loop, spec_size_loop, hfc]
    | some cnode =>
      cases hts : ts cnode with
      | none =>
        have hss : ss cnode = none := by rw [← hcast]; simp [hts]
        simp [tree_size_loop, spec_size_loop, hfc, hts, hss]
      | some s =>
        have hss : ss cnode = some (s : Int) := by rw [← hcast]; simp [hts]
        simp only [tree_size_loop, spec_size_loop, hfc, hts, hss, Option.bind_eq_bind,
          Option.some_bind]
        have h := ih (accN + s)
        rw [show ((accN + s : Nat) : Int) = (accN : Int) + (s : Int) from by push_cast; ring] at h
        exact h

theorem tree_size_eq_spec : ∀ (f : Nat) (n : CommitNode) (m : CMap),
    (get_commit_tree_size f n m).map (fun s => (s : Int)) = subtreeSizeSpec f n m := by
  intro f
  induction f with
  | zero => intro n m; simp [get_commit_tree_size, subtreeSizeSpec]
  | succ f ih =>
    intro n m
    rw [get_commit_tree_size, subtreeSizeSpec]
    have hinit :
        ((if n.children.length > 0 then n.children.length - 1 else n.children.length : Nat) :
          Int) = max 0 ((n.children.length : Int) - 1) := by
      by_cases h : n.children.length > 0 <;> simp [h] <;> omega
    rw [← hinit]
    exact size_loop_cast _ _ m (fun c => ih c m) n.children _

/-- C2: `get_commit_height` follows the spec's recursion.  The conjuncts:
(1) the code's `get_commit_tree_size` computes exactly the spec's
`subtreeSize = max(0, childCount - 1) + Σ subtreeSize(c)`;
(2) `subtreeSize` is never negative; (3) `subtreeSize` is `0` on leaves;
(4) a node with no parents has height `0`; (5) when the (first) parent `p`
has exactly one child, `height(n) = height(p)`; (6) when `p` has more than
one child, the child sitting at index `0` of `p.children` gets
`height(p) - (1 + subtreeSize(n))` and every other child gets
`height(p) + (1 + subtreeSize(n))`. -/
theorem C2_height_matches_spec :
    (∀ (f : Nat) (n : CommitNode) (m : CMap),
      (get_commit_tree_size f n m).map (fun s => (s : Int)) = subtreeSizeSpec f n m) ∧
    (∀ (f : Nat) (n : CommitNode) (m : CMap) (s : Int),
      subtreeSizeSpec f n m = some s → 0 ≤ s) ∧
    (∀ (f : Nat) (n : CommitNode) (m : CMap),
      n.children = [] → subtreeSizeSpec (f + 1) n m = some 0) ∧
    (∀ (f : Nat) (n : CommitNode) (m : CMap),
      n.parents = [] → get_commit_height (f + 1) n m = some 0) ∧
    (∀ (f : Nat) (n : CommitNode) (m : CMap) (pid : String) (rest : List String)
        (p : CommitNode),
      n.parents = pid :: rest → findCommit m pid = some p → p.children.length = 1 →
      get_commit_height (f + 1) n m = get_commit_height f p m) ∧
    (∀ (f : Nat) (n : CommitNode) (m : CMap) (pid : String) (rest : List String)
        (p : CommitNode) (i : Nat) (s : Nat) (hp : Int),
      n.parents = pid :: rest → findCommit m pid = some p → 2 ≤ p.children.length →
      p.children.findIdx? (fun c => c == n.id) = some i →
      get_commit_tree_size f n m = some s → get_commit_height f p m = some hp →
      (i = 0 → get_commit_height (f + 1) n m = some (hp - (1 + (s : Int)))) ∧
      (i ≠ 0 → get_commit_height (f + 1) n m = some (hp + (1 + (s : Int))))) := by
  refine ⟨tree_size_eq_spec, ?_, ?_, ?_, ?_, ?_⟩
  · intro f n m s hs
    have h := tree_size_eq_spec f n m
    rw [hs] at h
    cases hts : get_commit_tree_size f n m with
    | none => rw [hts] at h; simp at h
    | some k => rw [hts] at h; simp at h; omega
  · intro f n m hc
    rw [subtreeSizeSpec]
    simp [hc, spec_size_loop]
  · intro f n m hp
    rw [get_commit_height, if_pos (by simp [hp])]
  · intro f n m pid rest p hpar hfc hone
    rw [get_commit_height, if_neg (by simp [hpar])]
    simp [hpar, hfc, hone]
  · intro f n m pid rest p i s hp hpar hfc h2 hidx hsz hht
    have hne1 : ¬p.children.length = 1 := by omega
    constructor <;> intro hi
    · rw [get_commit_height, if_neg (by simp [hpar])]
      simp [hpar, hfc, hne1, hidx, hsz, hht, hi]
      ring
    · rw [get_commit_height, if_neg (by simp [hpar])]
      simp [hpar, hfc, hne1, hidx, hsz, hht, hi]

/-- Witness for C2 at the spec §8 scenario (`mABC`): `b` is the first child
of the root `a`, whose two children make it a branch point; `b` is a leaf
(`subtreeSize 0`), so `height(b) = height(a) - (1 + 0) = -1`. -/
theorem C2_witness : get_commit_height 2 nodeB mABC = some (-1) := by
  have h := (C2_height_matches_spec.2.2.2.2.2 1 nodeB mABC "a" [] nodeA 0 0 0
    rfl (by decide) (by decide) (by decide) (by decide) (by decide)).1 rfl
  simpa using h

/-! ### C1: `CommitNode::create` -/

theorem create_fst (c : Commit) (m : CMap) (ref : Option String) (r : String × CMap)
    (h : create c m ref = some r) : r.1 = c.id := by
  cases c with
  | mk cid ps =>
    rw [create] at h
    by_cases hc : (containsKey m cid && ref.isNone) = true
    · rw [if_pos hc] at h
      simp at h
      simp [Commit.id, ← h]
    · rw [if_neg hc] at h
      cases hpr : createParents ps m with
      | none => simp [hpr] at h
      | some pr =>
        cases hlk : linkChildren ps pr.2 cid with
        | none => simp [hpr, hlk] at h
        | some m2 =>
          simp [hpr, hlk] at h
          simp [Commit.id, ← h]

theorem createParents_ids :
    ∀ (ps : List Commit) (m : CMap) (r : List String × CMap),
      createParents ps m = some r → r.1 = ps.map Commit.id := by
  intro ps
  induction ps with
  | nil =>
    intro m r h
    rw [createParents] at h
    simp at h
    simp [← h]
  | cons p rest ih =>
    intro m r h
    rw [createParents] at h
    cases hpr : create p m none with
    | none => simp [hpr] at h
    | some pr =>
      cases hrr : createParents rest pr.2 with
      | none => simp [hpr, hrr] at h
      | some rr =>
        simp [hpr, hrr] at h
        have h1 := create_fst p m none pr hpr
        have h2 := ih pr.2 rr hrr
        simp [← h, h1, h2]

/-- C1 (amended): per-id behaviour of `addCommit` / `CommitNode::create`.
Re-calling it for a present id with no label is a no-op; re-calling it with
a label `some l` rebuilds the node: the stored node for the id afterwards
carries the given label (the *last* label wins, overwriting any existing
one), the parents' returned ids, and an *empty* children list. -/
theorem C1_addCommit_idempotency_amended :
    (∀ (c : Commit) (m : CMap), containsKey m c.id = true →
      create c m none = some (c.id, m)) ∧
    (∀ (c : Commit) (m : CMap) (label : String) (r : String × CMap),
      create c m (some label) = some r →
      r.1 = c.id ∧
      findCommit r.2 c.id = some ⟨c.id, c.parents.map Commit.id, [], some label⟩) := by
  constructor
  · intro c m hc
    cases c with
    | mk cid ps =>
      simp [Commit.id] at hc
      rw [create, if_pos (by simp [hc])]
      rfl
  · intro c m label r h
    cases c with
    | mk cid ps =>
      rw [create, if_neg (by simp)] at h
      cases hpr : createParents ps m with
      | none => simp [hpr] at h
      | some pr =>
        cases hlk : linkChildren ps pr.2 cid with
        | none => simp [hpr, hlk] at h
        | some m2 =>
          simp [hpr, hlk] at h
          refine ⟨by simp [Commit.id, ← h], ?_⟩
          rw [← h]
          simp [Commit.id, Commit.parents, findCommit_insert_self,
            createParents_ids ps m pr hpr]

/-- C1 counterexample: revisiting the known id `b` with the new label `l2`
does not preserve the first label `l1` and does not leave the edges alone:
the stored label becomes `l2` and the parent `a` gains a duplicate child
edge `["b", "b"]`. -/
theorem C1_counterexample :
    create cB [] (some "l1") = some ("b", m1C1) ∧
    create cB m1C1 (some "l2") = some ("b", m2C1) ∧
    (findCommit m1C1 "b").map CommitNode.reference = some (some "l1") ∧
    (findCommit m2C1 "b").map CommitNode.reference = some (some "l2") ∧
    (findCommit m1C1 "a").map CommitNode.children = some ["b"] ∧
    (findCommit m2C1 "a").map CommitNode.children = some ["b", "b"] := by
  refine ⟨?_, ?_, by decide, by decide, by decide, by decide⟩
  · simp [cB, m1C1, create, createParents, linkChildren, containsKey, findCommit,
      insertCommit]
  · simp [cB, m1C1, m2C1, create, createParents, linkChildren, containsKey, findCommit,
      insertCommit]

/-- Witness for C1: re-adding the already-present commit `a` with no label
is a no-op on the map. -/
theorem C1_witness :
    containsKey mW1 cA1.id = true ∧ create cA1 mW1 none = some (cA1.id, mW1) :=
  ⟨by decide, C1_addCommit_idempotency_amended.1 cA1 mW1 (by decide)⟩

/-! ### C4: cursor-anchored zoom -/

theorem rustClamp_pos (x lo hi : ℚ) (hlo : 0 < lo) (hlohi : lo ≤ hi) :
    0 < rustClamp x lo hi := by
  rw [rustClamp]
  split_ifs with h1 h2
  · exact hlo
  · linarith
  · linarith

/-- C4: cursor-anchored zoom.  For any viewport state whose zoom lies in the
clamp range `[0.001, 4]` and any wheel event received while not dragging,
the graph-space point under the cursor (under the inverse transform
`graphX = (screenX - width/2)/zoom - offset.x`) is exactly the same before
and after `wheel_scrolled_update` — for `Lines` deltas because the offset is
corrected by the recomputed screen position, and for `Pixels` deltas because
the state is untouched. -/
theorem C4_cursor_anchored_zoom (st : TreeState) (bounds : Rectangle)
    (delta : ScrollDelta) (hdrag : st.dragging = false)
    (hz1 : 1 / 1000 ≤ st.zoom) (_hz2 : st.zoom ≤ 4) :
    graph_point_under_cursor (wheel_scrolled_update st bounds delta).1 bounds =
      graph_point_under_cursor st bounds := by
  have hz : st.zoom ≠ 0 := by
    intro h
    rw [h] at hz1
    norm_num at hz1
  cases delta with
  | Pixels a b => simp [wheel_scrolled_update, hdrag]
  | Lines a y =>
    have hZpos : (0 : ℚ) < rustClamp (st.zoom + y * (15 / 100) * st.zoom) (1 / 1000) 4 :=
      rustClamp_pos _ _ _ (by norm_num) (by norm_num)
    have hZ : rustClamp (st.zoom + y * (15 / 100) * st.zoom) (1 / 1000) 4 ≠ 0 :=
      ne_of_gt hZpos
    simp only [wheel_scrolled_update, hdrag, Bool.not_false, if_pos, if_true,
      graph_point_under_cursor, adjust_position_for_view, Point.mk.injEq]
    set Z := rustClamp (st.zoom + y * (15 / 100) * st.zoom) (1 / 1000) 4 with hZdef
    constructor
    · field_simp
      ring
    · field_simp
      ring

/-- Witness for C4: a wheel-up event (`Lines` delta `y = 1`) at zoom `1`
with the pointer at `(10, 20)` and offset `(3, 4)`. -/
theorem C4_witness :
    (1 / 1000 : ℚ) ≤ stW4.zoom ∧ stW4.zoom ≤ 4 ∧
    graph_point_under_cursor
        (wheel_scrolled_update stW4 ⟨0, 0, 100, 50⟩ (ScrollDelta.Lines 0 1)).1
        ⟨0, 0, 100, 50⟩ =
      graph_point_under_cursor stW4 ⟨0, 0, 100, 50⟩ :=
  ⟨by norm_num [stW4], by norm_num [stW4],
    C4_cursor_anchored_zoom stW4 ⟨0, 0, 100, 50⟩ (ScrollDelta.Lines 0 1) rfl
      (by norm_num [stW4]) (by norm_num [stW4])⟩

/-! ### C6: deterministic hit-testing -/

/-- Whether a node id is hit by the current pointer position: its recorded
location exists and its screen projection is within `NODE_RADIUS * zoom`. -/
def node_hit (st : TreeState) (bounds : Rectangle) (id : String) : Bool :=
  match findLoc st.node_locations id with
  | some loc =>
    distance_lt st.mouse_location (adjust_position_for_view loc bounds st)
      (NODE_RADIUS * st.zoom)
  | none => false

theorem hit_test_loop_eq_find (st : TreeState) (bounds : Rectangle) :
    ∀ ids : List String,
      (∀ id ∈ ids, (findLoc st.node_locations id).isSome = true) →
      hit_test_loop ids st bounds = some (ids.find? (node_hit st bounds)) := by
  intro ids
  induction ids with
  | nil => intro _; simp [hit_test_loop]
  | cons id rest ih =>
    intro hall
    have hid := hall id (List.mem_cons_self id rest)
    cases hfl : findLoc st.node_locations id with
    | none => rw [hfl] at hid; simp at hid
    | some loc =>
      by_cases hdist : distance_lt st.mouse_location
          (adjust_position_for_view loc bounds st) (NODE_RADIUS * st.zoom) = true
      · simp [hit_test_loop, hfl, hdist, List.find?, node_hit]
      · simp only [hit_test_loop, hfl, hdist, List.find?, node_hit, Bool.false_eq_true,
          if_false]
        rw [ih (fun i hi => hall i (List.mem_cons_of_mem id hi))]

/-- C6: pointer-down hit-testing is deterministic.  The press handler is a
pure function of the graph, the cached locations and the viewport state, so
two runs on the same inputs give the same result; moreover, whenever every
id has a cached location and the pointer is inside the canvas, the emitted
message is determined by `List.find?` over the fixed iteration order — the
first matching node wins every time, ties included. -/
theorem C6_hit_testing_deterministic :
    (∀ (commits : CMap) (st : TreeState) (bounds : Rectangle),
      button_pressed_update commits st bounds Button.Left =
        button_pressed_update commits st bounds Button.Left) ∧
    (∀ (commits : CMap) (st : TreeState) (bounds : Rectangle),
      (∀ id ∈ keysOf commits, (findLoc st.node_locations id).isSome = true) →
      0 < st.mouse_location.y →
      button_pressed_update commits st bounds Button.Left =
        some (match (keysOf commits).find? (node_hit st bounds) with
          | some id => (st, Status.Captured, some (Message.SelectCommit id))
          | none =>
            ({ st with dragging := true, dragging_start := st.mouse_location,
                       offset_start := st.offset },
             Status.Captured, some Message.UnselectCommit))) := by
  constructor
  · intro commits st bounds
    rfl
  · intro commits st bounds hall hy
    rw [button_pressed_update, if_pos rfl, if_pos hy,
      hit_test_loop_eq_find st bounds (keysOf commits) hall]
    cases (keysOf commits).find? (node_hit st bounds) <;> rfl

/-- Witness for C6: two nodes `n1`, `n2` share the screen location `(0,0)`
and both are within the hit radius of the pointer at `(0,1)`; the handler
picks `n1`, the first key in iteration order. -/
theorem C6_witness :
    button_pressed_update mW6 stW6 bW6 Button.Left =
      some (stW6, Status.Captured, some (Message.SelectCommit "n1")) := by
  have h := C6_hit_testing_deterministic.2 mW6 stW6 bW6 (by decide)
    (by norm_num [stW6])
  rw [h]
  have hhit : node_hit stW6 bW6 "n1" = true := by
    rw [node_hit]
    norm_num [stW6, findLoc, adjust_position_for_view, distance_lt, NODE_RADIUS, bW6]
  simp [keysOf, mW6, List.find?, hhit]

/-! ### C7: layout cache lifecycle -/

theorem findLoc_insert_self (locs : List (String × Point)) (id : String) (loc : Point) :
    findLoc (insertLoc locs id loc) id = some loc := by
  induction locs with
  | nil => simp [insertLoc, findLoc]
  | cons kv rest ih =>
    obtain ⟨k, w⟩ := kv
    by_cases hk : k == id
    · simp [insertLoc, hk, findLoc]
    · simp [insertLoc, hk, findLoc, ih]

theorem findLoc_insert_ne (locs : List (String × Point)) (id id' : String) (loc : Point)
    (h : ¬id' = id) : findLoc (insertLoc locs id loc) id' = findLoc locs id' := by
  have hne : ¬id = id' := fun hh => h hh.symm
  induction locs with
  | nil =>
    simp [insertLoc, findLoc]
    exact hne
  | cons kv rest ih =>
    obtain ⟨k, w⟩ := kv
    by_cases hk : k == id
    · have hk' : k = id := by simpa using hk
      subst hk'
      simp [insertLoc, findLoc]
      rw [if_neg hne, if_neg hne]
    · simp only [insertLoc, hk, Bool.false_eq_true, if_false]
      by_cases hk2 : k == id'
      · simp [findLoc, hk2]
      · simp [findLoc, hk2, ih]

theorem findCommit_eq_none_of_not_mem (es : CMap) (id : String) :
    id ∉ keysOf es → findCommit es id = none := by
  induction es with
  | nil => intro _; simp [findCommit]
  | cons kv rest ih =>
    obtain ⟨k, w⟩ := kv
    intro h
    rw [show keysOf ((k, w) :: rest) = k :: keysOf rest from rfl, List.mem_cons] at h
    push_neg at h
    rw [findCommit, if_neg (by simp; exact fun hh => h.1 hh.symm)]
    exact ih h.2

theorem locations_loop_spec (gl : CommitNode → Option Point) :
    ∀ (es : CMap) (locs L : List (String × Point)),
      (keysOf es).Nodup →
      locations_loop gl es locs = some L →
      ∀ id, findLoc L id =
        match findCommit es id with
        | some c => gl c
        | none => findLoc locs id := by
  intro es
  induction es with
  | nil =>
    intro locs L _ h id
    simp [locations_loop] at h
    subst h
    simp [findCommit]
  | cons kv rest ih =>
    obtain ⟨k, c⟩ := kv
    intro locs L hnd h id
    simp [keysOf] at hnd
    cases hgl : gl c with
    | none => simp [locations_loop, hgl] at h
    | some lk =>
      simp [locations_loop, hgl] at h
      have hrec := ih (insertLoc locs k lk) L (by simpa [keysOf] using hnd.2) h
      by_cases hid : k = id
      · subst hid
        rw [hrec k]
        have hnone : findCommit rest k = none :=
          findCommit_eq_none_of_not_mem rest k (by simpa [keysOf] using hnd.1)
        simp [findCommit, hnone, findLoc_insert_self, hgl]
      · rw [hrec id]
        cases hfc : findCommit rest id with
        | none =>
          simp [findCommit, hfc, fun hh : k = id => hid hh,
            findLoc_insert_ne locs k id lk (fun hh => hid hh.symm)]
        | some c' => simp [findCommit, hfc, fun hh : k = id => hid hh]

/-- C7 (amended): node layout positions are computed exactly once per canvas
state.  On the first update pass (`initialized = false`, empty cache) the
cache is filled so that every id of the *current* graph maps to the position
derived from depth and height over that graph; on every later pass —
including after the graph has changed — `ensure_node_locations` returns the
state unchanged, so the cache is never recomputed and can go stale. -/
theorem C7_layout_cache_amended :
    (∀ (fuel : Nat) (commits : CMap) (st : TreeState),
      st.initialized = true → ensure_node_locations fuel commits st = some st) ∧
    (∀ (fuel : Nat) (commits : CMap) (st st' : TreeState),
      (keysOf commits).Nodup → st.initialized = false → st.node_locations = [] →
      ensure_node_locations fuel commits st = some st' →
      st'.initialized = true ∧
      ∀ id, findLoc st'.node_locations id =
        (findCommit commits id).bind
          (fun c => get_commit_node_location fuel c commits)) := by
  constructor
  · intro fuel commits st hinit
    rw [ensure_node_locations, hinit]
    rfl
  · intro fuel commits st st' hnd hinit hempty h
    rw [ensure_node_locations, hinit] at h
    simp only [Bool.not_false, if_true] at h
    cases hloop : locations_loop
        (fun commit => get_commit_node_location fuel commit commits) commits
        st.node_locations with
    | none => rw [hloop] at h; simp at h
    | some L =>
      rw [hloop] at h
      simp at h
      have hspec := locations_loop_spec _ commits st.node_locations L hnd hloop
      constructor
      · simp [← h]
      · intro id
        have := hspec id
        rw [hempty] at this
        rw [← h]
        simp only [TreeState.node_locations]
        rw [this]
        cases hfc : findCommit commits id <;> simp [findLoc]

/-- C7 counterexample: after the first pass cached `mG1`'s single node, a
later pass over the grown graph `mG2` leaves the cache untouched: the new
node `b` has no cached position even though the layout derived from the
current graph places it at `(125, 0)`. -/
theorem C7_counterexample :
    ensure_node_locations 1 mG1 TreeState.default = some stStale ∧
    ensure_node_locations 2 mG2 stStale = some stStale ∧
    findLoc stStale.node_locations "b" = none ∧
    get_commit_node_location 2 nB7 mG2 = some ⟨125, 0⟩ := by
  refine ⟨?_, by rw [ensure_node_locations]; rfl, by decide, ?_⟩
  · rw [ensure_node_locations]
    norm_num [TreeState.default, locations_loop, get_commit_node_location,
      get_commit_depth, get_commit_height, mG1, insertLoc, stStale, NODE_RADIUS]
  · norm_num [get_commit_node_location, get_commit_depth, get_commit_height,
      depth_loop, mG2, nB7, findCommit, NODE_RADIUS, USIZE_MAX, USIZE_MOD]

/-- Witness for C7: a pass over the changed graph with `initialized = true`
is a no-op. -/
theorem C7_witness : ensure_node_locations 2 mG2 stStale = some stStale :=
  C7_layout_cache_amended.1 2 mG2 stStale rfl

/-! ### C9: drag initiation and drag moves -/

theorem hit_test_loop_all_miss (st : TreeState) (bounds : Rectangle) :
    ∀ ids : List String,
      (∀ id ∈ ids, ∃ loc, findLoc st.node_locations id = some loc ∧
        distance_lt st.mouse_location (adjust_position_for_view loc bounds st)
          (NODE_RADIUS * st.zoom) = false) →
      hit_test_loop ids st bounds = some none := by
  intro ids
  induction ids with
  | nil => intro _; simp [hit_test_loop]
  | cons id rest ih =>
    intro hall
    obtain ⟨loc, hloc, hmiss⟩ := hall id (List.mem_cons_self id rest)
    simp [hit_test_loop, hloc, hmiss]
    exact ih (fun i hi => hall i (List.mem_cons_of_mem id hi))

/-- C9 (amended): (1) a left press with pointer local `y > 0` that is
strictly outside every node's radius switches the controller to dragging,
captures the pointer position and offset as the drag anchor, and emits
`UnselectCommit`; a press with `y ≤ 0` never does (see the counterexample).
(2) On every pointer move while dragging, the new offset is the anchored
offset plus the pointer delta from the anchor divided by the current zoom. -/
theorem C9_drag_state_machine_amended :
    (∀ (commits : CMap) (st : TreeState) (bounds : Rectangle),
      0 < st.mouse_location.y →
      (∀ id ∈ keysOf commits, ∃ loc, findLoc st.node_locations id = some loc ∧
        distance_lt st.mouse_location (adjust_position_for_view loc bounds st)
          (NODE_RADIUS * st.zoom) = false) →
      button_pressed_update commits st bounds Button.Left =
        some ({ st with dragging := true, dragging_start := st.mouse_location,
                        offset_start := st.offset },
              Status.Captured, some Message.UnselectCommit)) ∧
    (∀ (st : TreeState) (bounds : Rectangle) (location : Point),
      st.dragging = true →
      ((cursor_moved_update st bounds location).1).offset =
        st.offset_start +
          Vector.mk ((location.x - bounds.x - st.dragging_start.x) / st.zoom)
                    ((location.y - bounds.y - st.dragging_start.y) / st.zoom)) := by
  constructor
  · intro commits st bounds hy hmiss
    rw [button_pressed_update, if_pos rfl, if_pos hy,
      hit_test_loop_all_miss st bounds (keysOf commits) hmiss]
  · intro st bounds location hdrag
    simp [cursor_moved_update, hdrag, Vector.mk.injEq]
    constructor <;> rw [div_eq_mul_inv]

/-- C9 counterexample: the claim as stated quantifies over *every* left
press outside all node radii, but a press recorded at `y = -1` (vacuously
outside every node of the empty graph) is consumed without starting a drag
and without emitting `UnselectCommit`. -/
theorem C9_counterexample :
    button_pressed_update [] stC9neg b0 Button.Left =
      some (stC9neg, Status.Captured, none) ∧
    stC9neg.dragging = false ∧ keysOf [] = [] := by
  refine ⟨?_, rfl, rfl⟩
  rw [button_pressed_update, if_pos rfl, if_neg (by norm_num [stC9neg])]

/-- Witness for C9: a press at `(5, 5)` over the empty graph starts a drag
and emits `UnselectCommit`; a following move to `(7, 9)` while dragging at
zoom `2` with anchors `dragging_start = (2, 2)`, `offset_start = (1, 1)`
shifts the offset by the pointer delta divided by the zoom. -/
theorem C9_witness :
    button_pressed_update [] stW9a b0 Button.Left =
      some ({ stW9a with dragging := true, dragging_start := stW9a.mouse_location,
                         offset_start := stW9a.offset },
            Status.Captured, some Message.UnselectCommit) ∧
    ((cursor_moved_update stW9b b0 ⟨7, 9⟩).1).offset =
      stW9b.offset_start +
        Vector.mk ((7 - 0 - 2) / 2) ((9 - 0 - 2) / 2) :=
  ⟨C9_drag_state_machine_amended.1 [] stW9a b0 (by norm_num [stW9a])
      (by simp [keysOf]),
    C9_drag_state_machine_amended.2 stW9b b0 ⟨7, 9⟩ rfl⟩

end GitUI
